import Mathlib

/-!
Verification of the gap-buffer addressing core of `rust_src/src/buffers.rs`
(remacs).  The development shallowly embeds the position model
(`pos_within_range`, `fetch_byte`, `buf_byte_address`), the character-boundary
scanner (`inc_pos`, `dec_pos`), the per-buffer variable flag vector
(`value_p`, `set_per_buffer_value_p`) and the overlay index
(`delete_overlay`, `build_overlay`, `overlay_lists`).

Machine integers (`isize` / `ptrdiff_t`) are modelled as `Int`; sizes and raw
storage offsets as `Nat`.  A raw storage read yields `Option Nat`: `none`
models a read the Rust code would perform out of bounds (undefined
behaviour).  Where a source function panics or signals a Lisp error, the
model returns `none`.
-/

/-- Constant `BEG_BYTE` of `buffers.rs`: the first byte position of a buffer
(1-origin). -/
def BEG_BYTE : Int := 1

/-- Structure holding the addressing fields of `buffer_text` used by the
source: the storage array `beg`, the gap start `gpt_byte`, the gap length
`gap_size`, the one-past-the-end byte position `z_byte`, and the multibyte
flag `enable_multibyte_characters_`. -/
structure BufferText where
  beg : List Nat
  gpt_byte : Nat
  gap_size : Nat
  z_byte : Nat
  enable_multibyte_characters : Bool

/-- Modelled from the spec: head-byte classification is an external
collaborator ("a predicate 'is this byte a character head byte' and a
function 'encoded character length implied by this head byte', both
encoding-specific and supplied externally"); the source imports them as
`crate::character::char_head_p` and
`crate::multibyte::multibyte_length_by_head`, which are outside the
excerpt. -/
structure Encoding where
  char_head_p : Nat → Bool
  multibyte_length_by_head : Nat → Nat

/-- Function reading a byte of raw storage at integer offset `i`; `none`
models an out-of-bounds access, which is undefined behaviour in the
source. -/
def readByte (storage : List Nat) (i : Int) : Option Nat :=
  if 0 ≤ i then storage[i.toNat]? else none

/-- Method `LispBufferRef::pos_within_range`: the gap-aware offset, `gap_size`
if `pos >= gpt_byte` else `0`. -/
def pos_within_range (B : BufferText) (pos : Int) : Int :=
  if (B.gpt_byte : Int) ≤ pos then (B.gap_size : Int) else 0

/-- Method `LispBufferRef::fetch_byte`: the canonical gap-correct byte read,
computing its offset with the same test as `pos_within_range` and reading
`beg_addr + (offset + n - beg_byte)`. -/
def fetch_byte (B : BufferText) (n : Int) : Option Nat :=
  let offset : Int := if (B.gpt_byte : Int) ≤ n then (B.gap_size : Int) else 0
  readByte B.beg (offset + n - BEG_BYTE)

/-- Method `LispBufferRef::buf_byte_address`: reads
`beg_addr + (byte_pos - BEG_BYTE + pos_within_range byte_pos)`. -/
def buf_byte_address (B : BufferText) (byte_pos : Int) : Option Nat :=
  readByte B.beg (byte_pos - BEG_BYTE + pos_within_range B byte_pos)

/-- Method `LispBufferRef::inc_pos`: the next character boundary,
`pos_byte + multibyte_length_by_head (buf_byte_address pos_byte)`. -/
def inc_pos (E : Encoding) (B : BufferText) (pos_byte : Int) : Option Int :=
  (buf_byte_address B pos_byte).map
    (fun chp => pos_byte + (E.multibyte_length_by_head chp : Int))

/-- Loop of `LispBufferRef::dec_pos`: starting from storage offset `offset`
and byte position `pos`, step the raw storage pointer and the position
backwards in lockstep while the storage byte is not a head byte.  The gap is
not reconsulted: exactly as in the source, only the raw address moves.
`none` models the pointer leaving the storage array (undefined behaviour). -/
def decLoop (hp : Nat → Bool) (storage : List Nat) : Nat → Int → Option Int
  | 0, pos =>
    match storage[0]? with
    | none => none
    | some b => if hp b then some pos else none
  | o + 1, pos =>
    match storage[o + 1]? with
    | none => none
    | some b => if hp b then some pos else decLoop hp storage o (pos - 1)

/-- Method `LispBufferRef::dec_pos`: decrement to `pos_byte - 1`, compute the
storage offset `new_pos - beg_byte + pos_within_range new_pos` once, then
scan the raw storage backwards to the previous head byte. -/
def dec_pos (E : Encoding) (B : BufferText) (pos_byte : Int) : Option Int :=
  let new_pos := pos_byte - 1
  let offset := new_pos - BEG_BYTE + pos_within_range B new_pos
  if 0 ≤ offset then decLoop E.char_head_p B.beg offset.toNat new_pos else none

/-- Modelled from the spec: a concrete instance of the external head-byte
predicate, UTF-8 style — bytes `0x80`..`0xBF` are continuation bytes,
everything else is a head byte ("continuation bytes are distinguishable from
head bytes").  Used only to instantiate witnesses and counterexamples. -/
def specCharHeadP (b : Nat) : Bool := decide (b < 0x80) || decide (0xBF < b)

/-- Modelled from the spec: a concrete instance of the external length table,
"byte length implied by this head byte, 1 for ordinary bytes, 2-4 for
multi-byte heads" (UTF-8 style).  Used only for witnesses and
counterexamples. -/
def specLengthByHead (b : Nat) : Nat :=
  if b < 0xC0 then 1 else if b < 0xE0 then 2 else if b < 0xF0 then 3 else 4

/-- Concrete encoding instance for witnesses and counterexamples. -/
def specEncoding : Encoding := ⟨specCharHeadP, specLengthByHead⟩

/-- Concrete buffer with single-byte content "abc" and an empty gap at the
end (byte positions 1..3 live, `z_byte = 4`). -/
def bufABC : BufferText := ⟨[0x61, 0x62, 0x63], 4, 0, 4, false⟩

/-- Concrete multibyte buffer whose byte position 5 holds the head byte
`0xE2` of a three-byte encoded character (bytes 5, 6, 7). -/
def bufThree : BufferText :=
  ⟨[0x61, 0x61, 0x61, 0x61, 0xE2, 0x82, 0xAC, 0x61], 9, 0, 9, true⟩

/-- C1: for every byte position `b` the gap-aware offset `pos_within_range`
is `gap_size` when `gpt_byte ≤ b` and `0` otherwise, and `fetch_byte b`
reads the storage byte at offset `pos_within_range b + b - BEG_BYTE`. -/
theorem c1_fetch_byte_gap_aware (B : BufferText) (b : Int) :
    pos_within_range B b =
      (if (B.gpt_byte : Int) ≤ b then (B.gap_size : Int) else 0) ∧
    fetch_byte B b = readByte B.beg (pos_within_range B b + b - BEG_BYTE) :=
  ⟨rfl, rfl⟩

/-- C4: `inc_pos` returns the argument position plus the encoded length
implied by the head byte read gap-correctly at that position; in particular
on single-byte content `inc_pos 1 = 2`, and with a 3-byte head at byte
position 5, `inc_pos 5 = 8`. -/
theorem c4_inc_pos_head_length (E : Encoding) (B : BufferText) (b : Int) :
    inc_pos E B b = (buf_byte_address B b).map
      (fun chp => b + (E.multibyte_length_by_head chp : Int)) ∧
    inc_pos specEncoding bufABC 1 = some 2 ∧
    inc_pos specEncoding bufThree 5 = some 8 :=
  ⟨rfl, by decide, by decide⟩

/-- Modelled from the spec: the prevBoundary scan as the spec words it —
decrement the position, then scan backward one position at a time while the
byte at the current position, read gap-correctly (`fetch_byte`, so the
gap-aware offset is re-applied at every visited position), is not a head
byte.  The fuel argument only bounds the recursion; see `decPosSpec`. -/
def decScanSpec (E : Encoding) (B : BufferText) : Int → Nat → Option Int
  | _, 0 => none
  | pos, fuel + 1 =>
    match fetch_byte B pos with
    | none => none
    | some c => if E.char_head_p c then some pos else decScanSpec E B (pos - 1) fuel

/-- Modelled from the spec: prevBoundary with the gap-aware offset applied at
each visited position.  Fuel `(b - 1).toNat + 1` suffices to carry the scan
from `b - 1` down to position 0, which already reads below the buffer start
whenever `1 ≤ gpt_byte`. -/
def decPosSpec (E : Encoding) (B : BufferText) (pos_byte : Int) : Option Int :=
  decScanSpec E B (pos_byte - 1) ((pos_byte - 1).toNat + 1)

/-- Concrete buffer refuting C2: storage `[0x41, 0x41, 0x80, 0x80]` with the
gap (size 2) occupying storage offsets 1 and 2, so `gpt_byte = 2`.  Byte
position 1 is storage offset 0 (`0x41`, head) and byte position 2 is storage
offset 3 (`0x80`, continuation). -/
def bufGapX : BufferText := ⟨[0x41, 0x41, 0x80, 0x80], 2, 2, 3, true⟩

/-- C2 counterexample: on `bufGapX`, `dec_pos 3` scans across the gap
boundary with the stale gap offset and stops at position 0, while the scan
that re-applies the gap-aware offset at every visited position (the claim's
reading) stops at position 1 — so the claim is false at `b = 3`. -/
theorem c2_counterexample :
    dec_pos specEncoding bufGapX 3 = some 0 ∧
    decPosSpec specEncoding bufGapX 3 = some 1 := by
  constructor <;> rfl

/-- Helper: a gap-correct read strictly before the gap start uses no gap
offset and reads storage offset `n - 1`. -/
theorem fetch_byte_before_gap (B : BufferText) (n : Int) (h1 : 1 ≤ n)
    (hlt : n < (B.gpt_byte : Int)) :
    fetch_byte B n = B.beg[(n - 1).toNat]? := by
  have hc : ¬ ((B.gpt_byte : Int) ≤ n) := by omega
  have hnn : (0 : Int) ≤ 0 + n - BEG_BYTE := by simp only [BEG_BYTE]; omega
  have hidx : (0 + n - BEG_BYTE).toNat = (n - 1).toNat := by
    simp only [BEG_BYTE]; omega
  simp only [fetch_byte, readByte, if_neg hc, if_pos hnn, hidx]

/-- Helper: a gap-correct read at or after the gap start adds `gap_size` and
reads storage offset `gap_size + n - 1`. -/
theorem fetch_byte_after_gap (B : BufferText) (n : Int) (h1 : 1 ≤ n)
    (hge : (B.gpt_byte : Int) ≤ n) :
    fetch_byte B n = B.beg[((B.gap_size : Int) + n - 1).toNat]? := by
  have hnn : (0 : Int) ≤ (B.gap_size : Int) + n - BEG_BYTE := by
    simp only [BEG_BYTE]; omega
  have hidx : ((B.gap_size : Int) + n - BEG_BYTE).toNat =
      ((B.gap_size : Int) + n - 1).toNat := by simp only [BEG_BYTE]
  simp only [fetch_byte, readByte, if_pos hge, if_pos hnn, hidx]

/-- Helper: a gap-correct read at position 0 or below addresses storage
before its first byte, hence is undefined, as long as the gap starts at a
real buffer position. -/
theorem fetch_byte_nonpos (B : BufferText) (n : Int) (hgpt : 1 ≤ B.gpt_byte)
    (hn : n ≤ 0) : fetch_byte B n = none := by
  have hc : ¬ ((B.gpt_byte : Int) ≤ n) := by omega
  have hneg : ¬ ((0 : Int) ≤ 0 + n - BEG_BYTE) := by simp only [BEG_BYTE]; omega
  simp only [fetch_byte, readByte, if_neg hc, if_neg hneg]

/-- Helper: when every position from the start of the scan onwards lies
strictly before the gap start, the raw backward scan of `decLoop` coincides
with the spec's scan that re-reads gap-correctly at each position. -/
theorem decLoop_eq_decScanSpec (E : Encoding) (B : BufferText)
    (hgpt : 1 ≤ B.gpt_byte) :
    ∀ (off : Nat) (pos : Int) (fuel : Nat), pos = (off : Int) + 1 →
      pos < (B.gpt_byte : Int) → off + 2 ≤ fuel →
      decLoop E.char_head_p B.beg off pos = decScanSpec E B pos fuel := by
  intro off
  induction off with
  | zero =>
    intro pos fuel hpos hlt hfuel
    obtain ⟨f, rfl⟩ : ∃ f, fuel = f + 1 := ⟨fuel - 1, by omega⟩
    have hpos1 : pos = 1 := by omega
    subst hpos1
    have hfetch : fetch_byte B 1 = B.beg[0]? := by
      rw [fetch_byte_before_gap B 1 (by omega) (by omega)]
      norm_num
    rw [decScanSpec, hfetch, decLoop]
    cases hb : B.beg[0]? with
    | none => rfl
    | some c =>
      by_cases hc : E.char_head_p c
      · simp [hc]
      · simp only [hc, Bool.false_eq_true, if_neg, not_false_eq_true]
        obtain ⟨f', rfl⟩ : ∃ f', f = f' + 1 := ⟨f - 1, by omega⟩
        rw [decScanSpec, fetch_byte_nonpos B (1 - 1) hgpt (by omega)]
  | succ o ih =>
    intro pos fuel hpos hlt hfuel
    obtain ⟨f, rfl⟩ : ∃ f, fuel = f + 1 := ⟨fuel - 1, by omega⟩
    have hfetch : fetch_byte B pos = B.beg[o + 1]? := by
      rw [fetch_byte_before_gap B pos (by omega) hlt]
      have : (pos - 1).toNat = o + 1 := by omega
      rw [this]
    rw [decScanSpec, hfetch, decLoop]
    cases hb : B.beg[o + 1]? with
    | none => rfl
    | some c =>
      by_cases hc : E.char_head_p c
      · simp [hc]
      · simp only [hc, Bool.false_eq_true, if_neg, not_false_eq_true]
        exact ih (pos - 1) f (by omega) (by omega) (by omega)

/-- C2 amended: `dec_pos` first moves to `b - 1` and scans backward one byte
at a time, but the gap-aware offset is applied once, at the initial position
`b - 1`, after which only the raw storage address is decremented; whenever
the initial position lies strictly before the gap start this coincides with
re-reading gap-correctly at every visited position. -/
theorem c2_dec_pos_amended (E : Encoding) (B : BufferText) (b : Int)
    (hgpt : 1 ≤ B.gpt_byte) (h2 : 2 ≤ b) (hlt : b - 1 < (B.gpt_byte : Int)) :
    dec_pos E B b =
      decLoop E.char_head_p B.beg
        ((b - 1 - BEG_BYTE + pos_within_range B (b - 1)).toNat) (b - 1) ∧
    dec_pos E B b = decPosSpec E B b := by
  have hpwr : pos_within_range B (b - 1) = 0 := by
    unfold pos_within_range
    have : ¬ ((B.gpt_byte : Int) ≤ b - 1) := by omega
    simp [this]
  have hoff : (0 : Int) ≤ b - 1 - BEG_BYTE + pos_within_range B (b - 1) := by
    rw [hpwr]; simp only [BEG_BYTE]; omega
  constructor
  · unfold dec_pos
    simp only [hoff, if_pos]
  · unfold dec_pos
    simp only [hoff, if_pos]
    unfold decPosSpec
    apply decLoop_eq_decScanSpec E B hgpt _ _ _ _ hlt
    · rw [hpwr]; simp only [BEG_BYTE]; omega
    · rw [hpwr]; simp only [BEG_BYTE]; omega

/-- Witness for the amended C2 on a concrete buffer whose scan stays before
the gap. -/
theorem c2_dec_pos_amended_witness :
    dec_pos specEncoding bufABC 3 =
      decLoop specEncoding.char_head_p bufABC.beg
        (((3 : Int) - 1 - BEG_BYTE + pos_within_range bufABC ((3 : Int) - 1)).toNat)
        ((3 : Int) - 1) ∧
    dec_pos specEncoding bufABC 3 = decPosSpec specEncoding bufABC 3 :=
  c2_dec_pos_amended specEncoding bufABC 3 (by decide) (by decide) (by decide)

/-- Concatenated byte content of a list of encoded characters. -/
def contentBytes (cs : List (List Nat)) : List Nat := cs.flatten

/-- Byte position (1-origin) at which the i-th encoded character of the
content starts; for `i ≥ cs.length` this is the end position `z_byte`. -/
def charStart (cs : List (List Nat)) (i : Nat) : Nat :=
  1 + (contentBytes (cs.take i)).length

/-- Predicate stating that `c` is one well-formed encoded character for
encoding `E`: nonempty, head byte first, continuation bytes after, and the
length table agreeing with the actual length. -/
def isEncChar (E : Encoding) (c : List Nat) : Prop :=
  c ≠ [] ∧ E.char_head_p (c.headD 0) = true ∧
    (∀ x ∈ c.tail, E.char_head_p x = false) ∧
    E.multibyte_length_by_head (c.headD 0) = c.length

instance (E : Encoding) (c : List Nat) : Decidable (isEncChar E c) := by
  unfold isEncChar; infer_instance

/-- Well-formed encoded buffer content: the gap-correct reads of the live
byte positions spell out the concatenation of the encoded characters `cs`,
`z_byte` is one past the content, and the gap starts at a character
boundary. -/
structure WellFormed (E : Encoding) (B : BufferText) (cs : List (List Nat)) :
    Prop where
  chars : ∀ c ∈ cs, isEncChar E c
  zb : B.z_byte = 1 + (contentBytes cs).length
  content : ∀ q : Nat, q < (contentBytes cs).length →
    fetch_byte B (1 + (q : Int)) = (contentBytes cs)[q]?
  gpt_at_boundary : ∃ i, B.gpt_byte = charStart cs i
  gpt_ge : 1 ≤ B.gpt_byte

/-- Predicate: byte position `b` is a character boundary of content `cs`. -/
def IsBoundary (cs : List (List Nat)) (b : Int) : Prop :=
  ∃ i, b = (charStart cs i : Int)

/-- Helper: character starts are positive positions. -/
theorem charStart_pos (cs : List (List Nat)) (i : Nat) : 1 ≤ charStart cs i := by
  unfold charStart; omega

/-- Helper: the start of character `i + 1` is the start of character `i`
plus its encoded length. -/
theorem charStart_succ (cs : List (List Nat)) (i : Nat) (hi : i < cs.length) :
    charStart cs (i + 1) = charStart cs i + cs[i].length := by
  unfold charStart contentBytes
  rw [List.take_succ, List.flatten_append, List.getElem?_eq_getElem hi]
  simp [Nat.add_assoc]

/-- Helper: character starts are monotone in the character index. -/
theorem charStart_mono (cs : List (List Nat)) {i j : Nat} (h : i ≤ j) :
    charStart cs i ≤ charStart cs j := by
  induction h with
  | refl => exact le_rfl
  | step h ih =>
    refine le_trans ih ?_
    unfold charStart contentBytes
    rw [List.take_succ, List.flatten_append]
    simp

/-- Helper: the start past the last character is one past the content. -/
theorem charStart_full (cs : List (List Nat)) :
    charStart cs cs.length = 1 + (contentBytes cs).length := by
  unfold charStart
  rw [List.take_length]

/-- Helper: every boundary position is at most one past the content. -/
theorem charStart_le (cs : List (List Nat)) (i : Nat) :
    charStart cs i ≤ 1 + (contentBytes cs).length := by
  rcases le_or_lt i cs.length with h | h
  · exact le_trans (charStart_mono cs h) (le_of_eq (charStart_full cs))
  · unfold charStart
    rw [List.take_of_length_le (le_of_lt h)]

/-- Helper: the content splits around its i-th character. -/
theorem content_split (cs : List (List Nat)) (i : Nat) (hi : i < cs.length) :
    contentBytes cs =
      contentBytes (cs.take i) ++ (cs[i] ++ contentBytes (cs.drop (i + 1))) := by
  conv_lhs => rw [← List.take_append_drop i cs]
  unfold contentBytes
  rw [List.flatten_append, List.drop_eq_getElem_cons hi, List.flatten_cons]

/-- Helper: the content byte at offset `charStart i - 1 + j` is byte `j` of
character `i`. -/
theorem content_get_char (cs : List (List Nat)) (i : Nat) (hi : i < cs.length)
    (j : Nat) (hj : j < cs[i].length) :
    (contentBytes cs)[charStart cs i - 1 + j]? = cs[i][j]? := by
  rw [content_split cs i hi]
  have hlen : (contentBytes (cs.take i)).length = charStart cs i - 1 := by
    unfold charStart; omega
  rw [List.getElem?_append_right (by omega)]
  have hsub : charStart cs i - 1 + j - (contentBytes (cs.take i)).length = j := by
    omega
  rw [hsub, List.getElem?_append_left hj]

/-- Helper: every content offset lies inside exactly one character. -/
theorem pos_decomp (cs : List (List Nat)) :
    ∀ q : Nat, q < (contentBytes cs).length →
      ∃ i, ∃ hi : i < cs.length, ∃ j, j < cs[i].length ∧
        q + 1 = charStart cs i + j := by
  induction cs with
  | nil => intro q hq; simp [contentBytes] at hq
  | cons c rest ih =>
    intro q hq
    rw [contentBytes, List.flatten_cons, List.length_append] at hq
    by_cases hc : q < c.length
    · refine ⟨0, by simp, q, ⟨(by simpa using hc), ?_⟩⟩
      have h0 : charStart (c :: rest) 0 = 1 := by
        unfold charStart contentBytes
        simp
      omega
    · have hq' : q - c.length < (contentBytes rest).length := by
        unfold contentBytes at *; omega
      obtain ⟨i, hi, j, hj, heq⟩ := ih (q - c.length) hq'
      refine ⟨i + 1, ⟨(by simpa using hi), j, ⟨(by simpa using hj), ?_⟩⟩⟩
      have hcs : charStart (c :: rest) (i + 1) = c.length + charStart rest i := by
        unfold charStart contentBytes
        rw [List.take_succ_cons]
        simp [Nat.add_assoc]
        omega
      omega

/-- Helper: byte `j` of a well-formed encoded character exists and is a head
byte exactly when `j = 0`. -/
theorem isEncChar_byte (E : Encoding) (ch : List Nat) (hc : isEncChar E ch)
    (j : Nat) (hj : j < ch.length) :
    ∃ x, ch[j]? = some x ∧ (E.char_head_p x = true ↔ j = 0) := by
  obtain ⟨hne, hhead, htail, -⟩ := hc
  obtain ⟨h, t, rfl⟩ := List.exists_cons_of_ne_nil hne
  cases j with
  | zero => exact ⟨h, (by simp), (by simpa using hhead)⟩
  | succ j =>
    have hj' : j < t.length := by simpa using hj
    refine ⟨t[j], (by simp [List.getElem?_eq_getElem hj']), ?_⟩
    have hx := htail t[j] (List.getElem_mem hj')
    simp [hx]

/-- Helper: the first byte of a well-formed encoded character is its
`headD`. -/
theorem isEncChar_head (E : Encoding) (ch : List Nat) (hc : isEncChar E ch) :
    ch[0]? = some (ch.headD 0) := by
  obtain ⟨hne, -, -, -⟩ := hc
  obtain ⟨h, t, rfl⟩ := List.exists_cons_of_ne_nil hne
  simp

/-- Helper: `decLoop` halts immediately on a head byte. -/
theorem decLoop_head (hp : Nat → Bool) (storage : List Nat) (off : Nat)
    (pos : Int) (c : Nat) (hc : storage[off]? = some c) (hhp : hp c = true) :
    decLoop hp storage off pos = some pos := by
  cases off with
  | zero => rw [decLoop, hc]; simp [hhp]
  | succ o => rw [decLoop, hc]; simp [hhp]

/-- Helper: `decLoop` steps over a continuation byte. -/
theorem decLoop_step (hp : Nat → Bool) (storage : List Nat) (o : Nat)
    (pos : Int) (c : Nat) (hc : storage[o + 1]? = some c) (hhp : hp c = false) :
    decLoop hp storage (o + 1) pos = decLoop hp storage o (pos - 1) := by
  rw [decLoop, hc]
  simp [hhp]

/-- Helper: a scan started `d` continuation bytes after a head byte lands on
the head byte, after exactly `d` steps. -/
theorem decLoop_run (hp : Nat → Bool) (storage : List Nat) (base : Nat)
    (p : Int) :
    ∀ d : Nat,
      (∀ j : Nat, j ≤ d →
        ∃ c, storage[base + j]? = some c ∧ (hp c = true ↔ j = 0)) →
      decLoop hp storage (base + d) (p + d) = some p := by
  intro d
  induction d with
  | zero =>
    intro h
    obtain ⟨c, hc, hiff⟩ := h 0 le_rfl
    have hc0 : storage[base]? = some c := by simpa using hc
    have hrun := decLoop_head hp storage base (p + ((0 : Nat) : Int)) c hc0
      (hiff.mpr rfl)
    simpa using hrun
  | succ d ih =>
    intro h
    obtain ⟨c, hc, hiff⟩ := h (d + 1) le_rfl
    have hhp : hp c = false := by
      cases hpc : hp c with
      | false => rfl
      | true => exact absurd (hiff.mp hpc) (by omega)
    have hc' : storage[(base + d) + 1]? = some c := by
      have harith0 : (base + d) + 1 = base + (d + 1) := by omega
      rw [harith0, hc]
    have harith : base + (d + 1) = (base + d) + 1 := by omega
    rw [harith, decLoop_step hp storage (base + d) _ c hc' hhp]
    have harith2 : p + ((d + 1 : Nat) : Int) - 1 = p + (d : Nat) := by
      push_cast; ring
    rw [harith2]
    exact ih (fun j hj => h j (by omega))

/-- Helper: `buf_byte_address` and `fetch_byte` read the same storage
offset. -/
theorem buf_byte_address_eq_fetch_byte (B : BufferText) (n : Int) :
    buf_byte_address B n = fetch_byte B n := by
  show readByte B.beg (n - BEG_BYTE + pos_within_range B n) =
    readByte B.beg (pos_within_range B n + n - BEG_BYTE)
  congr 1
  ring

/-- Helper: in a well-formed buffer, a backward scan started anywhere inside
character `i` (at or after its head byte, before its end) lands on the
character's start position. -/
theorem dec_pos_lands (E : Encoding) (B : BufferText) (cs : List (List Nat))
    (hwf : WellFormed E B cs) (i : Nat) (hi : i < cs.length) (b : Int)
    (hlow : (charStart cs i : Int) < b)
    (hhigh : b ≤ (charStart cs i : Int) + cs[i].length) :
    dec_pos E B b = some ((charStart cs i : Int)) := by
  have hchar := hwf.chars cs[i] (List.getElem_mem hi)
  set s := charStart cs i with hs
  have hs1 : 1 ≤ s := charStart_pos cs i
  have hlen : 0 < cs[i].length := by
    rcases hchar with ⟨hne, -, -, -⟩
    exact List.length_pos.mpr hne
  have hnext : charStart cs (i + 1) = s + cs[i].length := charStart_succ cs i hi
  have hub : s + cs[i].length ≤ 1 + (contentBytes cs).length := by
    rw [← hnext]; exact charStart_le cs (i + 1)
  have hbyte : ∀ j : Nat, j < cs[i].length →
      ∃ x, fetch_byte B ((s : Int) + j) = some x ∧
        (E.char_head_p x = true ↔ j = 0) := by
    intro j hj
    obtain ⟨x, hx, hiff⟩ := isEncChar_byte E cs[i] hchar j hj
    refine ⟨x, ?_, hiff⟩
    have hq : s - 1 + j < (contentBytes cs).length := by omega
    have hcont := hwf.content (s - 1 + j) hq
    have harith : (1 : Int) + ((s - 1 + j : Nat) : Int) = (s : Int) + j := by
      push_cast; omega
    rw [harith] at hcont
    rw [hcont, content_get_char cs i hi j hj, hx]
  obtain ⟨k, hk⟩ := hwf.gpt_at_boundary
  have hside : B.gpt_byte ≤ s ∨ s + cs[i].length ≤ B.gpt_byte := by
    rcases le_or_lt k i with h | h
    · exact Or.inl (hk ▸ charStart_mono cs h)
    · right
      rw [hk, ← hnext]
      exact charStart_mono cs h
  obtain ⟨K, hKfetch, hKpwr⟩ :
      ∃ K : Nat,
        (∀ j : Nat, j < cs[i].length →
          fetch_byte B ((s : Int) + j) = B.beg[(s - 1 + K) + j]?) ∧
        pos_within_range B (b - 1) = (K : Int) := by
    rcases hside with hA | hB
    · refine ⟨B.gap_size, ?_, ?_⟩
      · intro j hj
        rw [fetch_byte_after_gap B ((s : Int) + j) (by omega) (by omega)]
        have hidx : ((B.gap_size : Int) + ((s : Int) + j) - 1).toNat =
            (s - 1 + B.gap_size) + j := by omega
        rw [hidx]
      · unfold pos_within_range
        rw [if_pos (by omega)]
    · refine ⟨0, ?_, ?_⟩
      · intro j hj
        rw [fetch_byte_before_gap B ((s : Int) + j) (by omega) (by omega)]
        have hidx : (((s : Int) + j) - 1).toNat = (s - 1 + 0) + j := by omega
        rw [hidx]
      · unfold pos_within_range
        rw [if_neg (by omega)]
        norm_num
  set d : Nat := (b - 1 - s).toNat with hd
  have hdlen : d < cs[i].length := by omega
  have hfacts : ∀ j : Nat, j ≤ d →
      ∃ c, B.beg[(s - 1 + K) + j]? = some c ∧
        (E.char_head_p c = true ↔ j = 0) := by
    intro j hj
    obtain ⟨x, hx, hiff⟩ := hbyte j (by omega)
    exact ⟨x, (by rw [← hKfetch j (by omega), hx]), hiff⟩
  have hrun := decLoop_run E.char_head_p B.beg (s - 1 + K) (s : Int) d hfacts
  have hdec : dec_pos E B b =
      (if 0 ≤ (b - 1 - BEG_BYTE + pos_within_range B (b - 1)) then
        decLoop E.char_head_p B.beg
          (b - 1 - BEG_BYTE + pos_within_range B (b - 1)).toNat (b - 1)
      else none) := rfl
  rw [hdec, hKpwr, if_pos (by simp only [BEG_BYTE]; omega)]
  have hoffeq : (b - 1 - BEG_BYTE + (K : Int)).toNat = (s - 1 + K) + d := by
    simp only [BEG_BYTE]; omega
  have hposeq : b - 1 = (s : Int) + (d : Int) := by omega
  rw [hoffeq, hposeq]
  exact hrun

/-- C3: in a multibyte buffer with well-formed encoded content, for every
byte position `b` that is a character boundary strictly greater than the
buffer start, `inc_pos (dec_pos b) = b`. -/
theorem c3_inc_dec_roundtrip (E : Encoding) (B : BufferText)
    (cs : List (List Nat)) (hwf : WellFormed E B cs)
    (hmb : B.enable_multibyte_characters = true) (b : Int)
    (hb : IsBoundary cs b) (h2 : 2 ≤ b) :
    (dec_pos E B b).bind (fun p => inc_pos E B p) = some b := by
  obtain ⟨i0, hi0⟩ := hb
  have hble : b ≤ 1 + (contentBytes cs).length := by
    have := charStart_le cs i0; omega
  have hq : (b - 2).toNat < (contentBytes cs).length := by omega
  obtain ⟨i, hi, j, hj, heq⟩ := pos_decomp cs (b - 2).toNat hq
  have hb1 : b - 1 = (charStart cs i : Nat) + (j : Int) := by omega
  have hlands := dec_pos_lands E B cs hwf i hi b (by omega) (by omega)
  have hnext : charStart cs (i + 1) = charStart cs i + cs[i].length :=
    charStart_succ cs i hi
  have hend : b = (charStart cs i : Int) + cs[i].length := by
    by_contra hne
    have hblt : b < (charStart cs i : Int) + cs[i].length := by omega
    have h1 : charStart cs i < charStart cs i0 := by omega
    have h2' : charStart cs i0 < charStart cs (i + 1) := by omega
    have hii0 : i < i0 := by
      by_contra hge
      have := charStart_mono cs (le_of_not_lt hge)
      omega
    have hi0i : i0 < i + 1 := by
      by_contra hge
      have := charStart_mono cs (le_of_not_lt hge)
      omega
    omega
  set s := charStart cs i with hsdef
  have hchar := hwf.chars cs[i] (List.getElem_mem hi)
  obtain ⟨hne, hhead, htail, hmlen⟩ := hchar
  have hs1 : 1 ≤ s := charStart_pos cs i
  have hlenpos : 0 < cs[i].length := List.length_pos.mpr hne
  have hqq : s - 1 < (contentBytes cs).length := by
    have := charStart_le cs (i + 1); omega
  have hcont := hwf.content (s - 1) hqq
  have harith : (1 : Int) + ((s - 1 : Nat) : Int) = (s : Int) := by
    omega
  rw [harith] at hcont
  have hzero : (contentBytes cs)[s - 1]? = cs[i][0]? := by
    have hh := content_get_char cs i hi 0 hlenpos
    simpa using hh
  have hfetch : fetch_byte B (s : Int) = some (cs[i].headD 0) := by
    rw [hcont, hzero, isEncChar_head E cs[i] ⟨hne, hhead, htail, hmlen⟩]
  have hinc : inc_pos E B (s : Int) = some ((s : Int) + cs[i].length) := by
    unfold inc_pos
    rw [buf_byte_address_eq_fetch_byte, hfetch]
    simp only [Option.map_some']
    rw [hmlen]
  rw [hlands, Option.some_bind, hinc, hend]

/-- C5: on well-formed content whose encoded characters are at most `W`
bytes wide, the backward scan of `dec_pos` performs at most `W - 1` steps
and terminates; and when the byte at `b - 1` is already a head byte the
loop body runs zero times and `dec_pos b = b - 1`. -/
theorem c5_dec_pos_bounded (E : Encoding) (B : BufferText)
    (cs : List (List Nat)) (hwf : WellFormed E B cs) (W : Nat)
    (hW : ∀ c ∈ cs, c.length ≤ W) (b : Int) (h2 : 2 ≤ b)
    (hz : b ≤ (B.z_byte : Int)) :
    (∃ p : Int, dec_pos E B b = some p ∧ b - 1 - p ≤ (W : Int) - 1) ∧
    (∀ c : Nat, fetch_byte B (b - 1) = some c → E.char_head_p c = true →
      dec_pos E B b = some (b - 1)) := by
  constructor
  · have hble : b ≤ 1 + (contentBytes cs).length := by
      have := hwf.zb; omega
    have hq : (b - 2).toNat < (contentBytes cs).length := by omega
    obtain ⟨i, hi, j, hj, heq⟩ := pos_decomp cs (b - 2).toNat hq
    have hlands := dec_pos_lands E B cs hwf i hi b (by omega) (by omega)
    refine ⟨(charStart cs i : Int), hlands, ?_⟩
    have hWi : cs[i].length ≤ W := hW cs[i] (List.getElem_mem hi)
    omega
  · intro c hfetch hhead
    have hfe : readByte B.beg
        (pos_within_range B (b - 1) + (b - 1) - BEG_BYTE) = some c := hfetch
    have hpwr_nonneg : 0 ≤ pos_within_range B (b - 1) := by
      unfold pos_within_range
      split <;> omega
    have h0 : (0 : Int) ≤ pos_within_range B (b - 1) + (b - 1) - BEG_BYTE := by
      simp only [BEG_BYTE]; omega
    unfold readByte at hfe
    rw [if_pos h0] at hfe
    have hdec : dec_pos E B b =
        (if 0 ≤ (b - 1 - BEG_BYTE + pos_within_range B (b - 1)) then
          decLoop E.char_head_p B.beg
            (b - 1 - BEG_BYTE + pos_within_range B (b - 1)).toNat (b - 1)
        else none) := rfl
    have hcomm : b - 1 - BEG_BYTE + pos_within_range B (b - 1) =
        pos_within_range B (b - 1) + (b - 1) - BEG_BYTE := by ring
    rw [hdec, hcomm, if_pos h0]
    exact decLoop_head E.char_head_p B.beg _ (b - 1) c hfe hhead

/-- Concrete two-character multibyte content: "a" then a two-byte
character. -/
def csAE : List (List Nat) := [[0x61], [0xC3, 0xA9]]

/-- Concrete multibyte buffer holding `csAE` with an empty gap at the end. -/
def bufAE : BufferText := ⟨[0x61, 0xC3, 0xA9], 4, 0, 4, true⟩

/-- Helper: `bufAE` is well formed with content `csAE`. -/
theorem bufAE_wf : WellFormed specEncoding bufAE csAE :=
  ⟨by decide, by decide, by decide, ⟨2, by decide⟩, by decide⟩

/-- Witness for C3 at the concrete boundary 4 of `bufAE`. -/
theorem c3_inc_dec_roundtrip_witness :
    (dec_pos specEncoding bufAE 4).bind
      (fun p => inc_pos specEncoding bufAE p) = some 4 :=
  c3_inc_dec_roundtrip specEncoding bufAE csAE bufAE_wf rfl 4
    ⟨2, by decide⟩ (by decide)

/-- Witness for C5 on `bufAE` with width bound 2 at position 3. -/
theorem c5_dec_pos_bounded_witness :
    (∃ p : Int, dec_pos specEncoding bufAE 3 = some p ∧
      (3 : Int) - 1 - p ≤ ((2 : Nat) : Int) - 1) ∧
    (∀ c : Nat, fetch_byte bufAE ((3 : Int) - 1) = some c →
      specEncoding.char_head_p c = true →
      dec_pos specEncoding bufAE 3 = some ((3 : Int) - 1)) :=
  c5_dec_pos_bounded specEncoding bufAE csAE bufAE_wf 2 (by decide) 3
    (by decide) (by decide)

/-- Method `LispBufferRef::value_p`: query whether per-buffer variable slot
`idx` has a buffer-local value.  The source panics when `idx < 0` or
`idx >= last_per_buffer_idx`, and Rust array indexing would also panic past
the end of `local_flags`; both aborts are modelled as `none`. -/
def value_p (last_per_buffer_idx : Nat) (local_flags : List Int)
    (idx : Int) : Option Bool :=
  if idx < 0 ∨ (last_per_buffer_idx : Int) ≤ idx then none
  else
    match local_flags[idx.toNat]? with
    | none => none
    | some v => some (decide (v ≠ 0))

/-- Method `LispBufferRef::set_per_buffer_value_p`: record whether slot
`idx` has a buffer-local value.  Takes `idx : usize`, so only the upper
bound `idx >= last_per_buffer_idx` is checked before the array write; both
that panic and an out-of-array write are modelled as `none`. -/
def set_per_buffer_value_p (last_per_buffer_idx : Nat) (local_flags : List Int)
    (idx : Nat) (val : Int) : Option (List Int) :=
  if last_per_buffer_idx ≤ idx then none
  else if idx < local_flags.length then some (local_flags.set idx val)
  else none

/-- C6: provided the flag vector covers all registered slots, `value_p`
aborts exactly when the index is negative or at least
`last_per_buffer_idx` — in particular at exactly `last_per_buffer_idx` —
and otherwise returns whether `flags[idx] != 0`; `set_per_buffer_value_p`
has the same bounds contract and writes `val` into the flag vector on an
in-range index. -/
theorem c6_per_buffer_flags_contract (last : Nat) (flags : List Int)
    (hlen : last ≤ flags.length) :
    (∀ idx : Int, value_p last flags idx = none ↔
      idx < 0 ∨ (last : Int) ≤ idx) ∧
    value_p last flags (last : Int) = none ∧
    (∀ idx : Int, 0 ≤ idx → idx < (last : Int) →
      ∃ v, flags[idx.toNat]? = some v ∧
        value_p last flags idx = some (decide (v ≠ 0))) ∧
    (∀ (idx : Nat) (val : Int),
      set_per_buffer_value_p last flags idx val = none ↔ last ≤ idx) ∧
    (∀ (idx : Nat) (val : Int), idx < last →
      set_per_buffer_value_p last flags idx val = some (flags.set idx val)) ∧
    (∀ val : Int, set_per_buffer_value_p last flags last val = none) := by
  have hget : ∀ idx : Int, 0 ≤ idx → idx < (last : Int) →
      ∃ v, flags[idx.toNat]? = some v := by
    intro idx h0 hlt
    have hn : idx.toNat < flags.length := by omega
    exact ⟨flags[idx.toNat], List.getElem?_eq_getElem hn⟩
  refine ⟨?_, ?_, ?_, ?_, ?_, ?_⟩
  · intro idx
    constructor
    · intro hnone
      by_contra hc
      push_neg at hc
      obtain ⟨h0, hlt⟩ := hc
      obtain ⟨v, hv⟩ := hget idx (by omega) (by omega)
      unfold value_p at hnone
      rw [if_neg (by omega), hv] at hnone
      exact Option.noConfusion hnone
    · intro h
      unfold value_p
      rw [if_pos (by omega)]
  · unfold value_p
    rw [if_pos (by omega)]
  · intro idx h0 hlt
    obtain ⟨v, hv⟩ := hget idx h0 hlt
    refine ⟨v, hv, ?_⟩
    unfold value_p
    rw [if_neg (by omega), hv]
  · intro idx val
    constructor
    · intro hnone
      by_contra hc
      unfold set_per_buffer_value_p at hnone
      rw [if_neg (by omega), if_pos (by omega)] at hnone
      exact Option.noConfusion hnone
    · intro h
      unfold set_per_buffer_value_p
      rw [if_pos h]
  · intro idx val hidx
    unfold set_per_buffer_value_p
    rw [if_neg (by omega), if_pos (by omega)]
  · intro val
    unfold set_per_buffer_value_p
    rw [if_pos (by omega)]

/-- Witness for C6 with two registered slots and flag vector `[1, 0]`. -/
theorem c6_per_buffer_flags_witness :
    value_p 2 [1, 0] ((2 : Nat) : Int) = none :=
  (c6_per_buffer_flags_contract 2 [1, 0] (by decide)).2.1

/-- Overlay identity: overlays are heap objects, named here by id. -/
abbrev OvId := Nat

/-- The `start` field of an overlay: either a marker — carrying, as
`marker_buffer` (external, `crate::marker`) reports it, an owning buffer or
none — or some non-marker Lisp object, on which `as_marker_or_error`
signals a wrong-type-argument error. -/
inductive StartField where
  | marker : Option Unit → StartField
  | other : StartField
deriving DecidableEq

/-- State touched by the overlay operations of `buffers.rs`: the current
buffer's two overlay chains (each singly linked chain denoted by the list
of overlays reached by following `next` links from the head, exactly the
sequence `LispOverlayIter` yields), the buffer's redisplay flag, each
overlay's `start` field, whether `Foverlay_get overlay Qbefore_string` /
`Qafter_string` is non-nil (the plist lookup itself is external), and the
global `windows_or_buffers_changed` counter. -/
structure OvState where
  overlays_before : List OvId
  overlays_after : List OvId
  prevent_redisplay_optimizations_p : Bool
  start : OvId → StartField
  before_string : OvId → Bool
  after_string : OvId → Bool
  windows_or_buffers_changed : Int

/-- Modelled from the spec: `unchain_both` (external, `remacs_sys`) unlinks
the overlay from whichever of the buffer's two overlay lists currently
contains it. -/
def unchain_both (s : OvState) (o : OvId) : OvState :=
  { s with
    overlays_before := s.overlays_before.filter (fun x => x ≠ o),
    overlays_after := s.overlays_after.filter (fun x => x ≠ o) }

/-- Modelled from the spec: `drop_overlay` (external, `remacs_sys`)
releases the overlay's association with the buffer's marker bookkeeping,
detaching its start marker from the buffer. -/
def drop_overlay (s : OvState) (o : OvId) : OvState :=
  { s with
    start := fun x => if x = o then StartField.marker none else s.start x }

/-- Function `delete_overlay`: resolve the owning buffer through the start
marker (`as_marker_or_error` signals a wrong-type-argument error, modelled
as `none`, when `start` is not a marker); with no owning buffer return with
no state change; otherwise unlink from both chains, drop the overlay, and
set `prevent_redisplay_optimizations_p` under the source's literal
condition `windows_or_buffers_changed != 0 && before_string || after_string`
(Rust `&&` binding tighter than `||`). -/
def delete_overlay (s : OvState) (o : OvId) : Option OvState :=
  match s.start o with
  | StartField.other => none
  | StartField.marker none => some s
  | StartField.marker (some _) =>
    let s1 := drop_overlay (unchain_both s o) o
    some (if (decide (s.windows_or_buffers_changed ≠ 0) && s.before_string o)
        || s.after_string o then
      { s1 with prevent_redisplay_optimizations_p := true }
    else s1)

/-- Function `build_overlay`: allocate overlay `o` with the given `start`
object and property list — represented by the two display-string
properties the excerpt ever queries — and `next` null, so it is attached
to no chain. -/
def build_overlay (s : OvState) (o : OvId) (st : StartField)
    (b_str a_str : Bool) : OvState :=
  { s with
    start := fun x => if x = o then st else s.start x,
    before_string := fun x => if x = o then b_str else s.before_string x,
    after_string := fun x => if x = o then a_str else s.after_string x }

/-- Fold of `overlay_lists`: `iter().fold(Qnil, |accum, n| cons(n, accum))`
builds the list of a chain in reverse. -/
def list_overlays (chain : List OvId) : List OvId :=
  chain.foldl (fun accum n => n :: accum) []

/-- Function `overlay_lists`: a cons of the two freshly built lists, with
`Fnreverse` restoring each fold result to forward order. -/
def overlay_lists (s : OvState) : List OvId × List OvId :=
  ((list_overlays s.overlays_before).reverse,
   (list_overlays s.overlays_after).reverse)

/-- Helper: a `delete_overlay` on an overlay whose start marker has no
owning buffer returns immediately with no state change. -/
theorem delete_overlay_detached (t : OvState) (o : OvId)
    (h : t.start o = StartField.marker none) : delete_overlay t o = some t := by
  simp only [delete_overlay, h]

/-- C7: `delete_overlay` resolves the buffer through the start marker; a
detached overlay (marker without owning buffer) gives an immediate no-op
with no state change, and after a successful removal the overlay is absent
from both chains of its former buffer and a second `delete_overlay` on it
is a no-op with no panic and no duplicate removal effects. -/
theorem c7_delete_overlay_contract (s : OvState) (o : OvId) :
    (s.start o = StartField.marker none → delete_overlay s o = some s) ∧
    (s.start o = StartField.marker (some ()) →
      ∃ s', delete_overlay s o = some s' ∧
        o ∉ s'.overlays_before ∧ o ∉ s'.overlays_after ∧
        delete_overlay s' o = some s') := by
  constructor
  · intro h
    exact delete_overlay_detached s o h
  · intro h
    set s1 := drop_overlay (unchain_both s o) o with hs1
    have hstart1 : s1.start o = StartField.marker none := by
      simp [hs1, drop_overlay]
    have hnb1 : o ∉ s1.overlays_before := by
      simp [hs1, drop_overlay, unchain_both, List.mem_filter]
    have hna1 : o ∉ s1.overlays_after := by
      simp [hs1, drop_overlay, unchain_both, List.mem_filter]
    refine ⟨if (decide (s.windows_or_buffers_changed ≠ 0) && s.before_string o)
        || s.after_string o then
          { s1 with prevent_redisplay_optimizations_p := true } else s1,
      (by simp only [delete_overlay, h, hs1]), ?_, ?_, ?_⟩
    · split
      · exact hnb1
      · exact hnb1
    · split
      · exact hna1
      · exact hna1
    · split
      · exact delete_overlay_detached _ o hstart1
      · exact delete_overlay_detached _ o hstart1

/-- Concrete state for the C7 witness: overlay 0 attached, in the
after-center chain. -/
def c7State : OvState :=
  { overlays_before := [1],
    overlays_after := [0, 2],
    prevent_redisplay_optimizations_p := false,
    start := fun _ => StartField.marker (some ()),
    before_string := fun _ => false,
    after_string := fun _ => false,
    windows_or_buffers_changed := 0 }

/-- Witness for C7 on the concrete state `c7State`. -/
theorem c7_delete_overlay_contract_witness :
    ∃ s', delete_overlay c7State 0 = some s' ∧
      (0 : OvId) ∉ s'.overlays_before ∧ (0 : OvId) ∉ s'.overlays_after ∧
      delete_overlay s' 0 = some s' :=
  (c7_delete_overlay_contract c7State 0).2 rfl

/-- Concrete state for C8: the single attached overlay 0 carries a non-nil
before-string and a nil after-string, and the global
`windows_or_buffers_changed` is 0. -/
def c8State : OvState :=
  { overlays_before := [],
    overlays_after := [0],
    prevent_redisplay_optimizations_p := false,
    start := fun _ => StartField.marker (some ()),
    before_string := fun _ => true,
    after_string := fun _ => false,
    windows_or_buffers_changed := 0 }

/-- C8: deleting an attached overlay that carries a non-nil before-string
(and nil after-string) while `windows_or_buffers_changed = 0` leaves
`prevent_redisplay_optimizations_p` false — the source's condition
`windows_or_buffers_changed != 0 && before || after` contradicts its own
comment — while the removal itself completes. -/
theorem c8_before_string_flag_bug :
    ∃ s', delete_overlay c8State 0 = some s' ∧
      s'.prevent_redisplay_optimizations_p = false ∧
      (0 : OvId) ∉ s'.overlays_before ∧ (0 : OvId) ∉ s'.overlays_after := by
  refine ⟨drop_overlay (unchain_both c8State 0) 0, rfl, rfl, ?_, ?_⟩
  · simp [drop_overlay, unchain_both, c8State]
  · simp [drop_overlay, unchain_both, c8State, List.mem_filter]

/-- Helper: folding cons over a chain builds its reverse. -/
theorem list_overlays_eq_reverse (chain : List OvId) :
    list_overlays chain = chain.reverse := by
  have hgen : ∀ (l acc : List OvId),
      l.foldl (fun accum n => n :: accum) acc = l.reverse ++ acc := by
    intro l
    induction l with
    | nil => intro acc; simp
    | cons x xs ih => intro acc; simp [List.foldl_cons, ih]
  have hc := hgen chain []
  simp only [List.append_nil] at hc
  exact hc

/-- C9: `overlay_lists` returns the pair whose car is the before-center
chain and whose cdr is the after-center chain, each in the forward order
obtained by following the chain's next links from its head — the fold
builds each list reversed and the reverse restores forward order — and the
elements are the chains' own overlay identities. -/
theorem c9_overlay_lists (s : OvState) :
    overlay_lists s = (s.overlays_before, s.overlays_after) ∧
    (∀ chain : List OvId, list_overlays chain = chain.reverse) := by
  constructor
  · unfold overlay_lists
    rw [list_overlays_eq_reverse, list_overlays_eq_reverse,
      List.reverse_reverse, List.reverse_reverse]
  · exact list_overlays_eq_reverse

/-- C10: `delete_overlay` requires the overlay's start to be a marker
object: on an overlay whose start is a non-marker — for example one
freshly created by `build_overlay` with a non-marker start, never attached
to a buffer — it signals a wrong-type-argument error (modelled `none`)
instead of treating the overlay as detached and returning as a no-op. -/
theorem c10_delete_overlay_wrong_type (s : OvState) (o : OvId)
    (b_str a_str : Bool) :
    (s.start o = StartField.other → delete_overlay s o = none) ∧
    delete_overlay (build_overlay s o StartField.other b_str a_str) o =
      none := by
  constructor
  · intro h
    simp only [delete_overlay, h]
  · simp only [delete_overlay, build_overlay]
    simp

/-- Witness for C10 on a concrete fresh overlay with a non-marker start. -/
theorem c10_delete_overlay_wrong_type_witness :
    delete_overlay (build_overlay c8State 1 StartField.other false false) 1 =
      none :=
  (c10_delete_overlay_wrong_type
    (build_overlay c8State 1 StartField.other false false) 1 false false).1 rfl
